import Mathlib

/-!
# Verification of the rtmaii analysis pipeline

Shallow embedding of the rtmaii repository (files `rtmaii/worker.py`,
`rtmaii/analysis/frequency.py`, `rtmaii/analysis/spectral.py`) and proofs of the
specified properties.  Numeric values that the Python code holds in machine
floats are modelled as exact rationals (`ℚ`) where the operations are rational,
and as real numbers (`ℝ`) where square roots and logarithms occur.
-/

set_option autoImplicit false

namespace Rtmaii

/-- Python exception kinds raised by the embedded code. -/
inductive PyError where
  | typeError : PyError
  | attributeError : PyError
  | valueError : PyError
deriving DecidableEq

/-! ## Python sequence slicing

`l[a:b]` with integer bounds: a negative bound counts from the end, a bound
past the end is clamped to the length.  `pySliceStart` resolves one bound to an
absolute index into the list. -/

/-- Resolve one Python slice bound against a list length. -/
def pySliceStart (len : Nat) (a : Int) : Nat :=
  if a < 0 then (len + a).toNat else min a.toNat len

/-- Python slice `l[a:b]`. -/
def pySlice {α : Type} (l : List α) (a b : Int) : List α :=
  (l.take (pySliceStart l.length b)).drop (pySliceStart l.length a)

/-! ## `rtmaii/analysis/frequency.py` -/

/-- `remove_noise(spectrum, noise_level)`: replace every amplitude strictly
below `noise_level` by `0`. -/
def remove_noise (spectrum : List ℚ) (noise_level : ℚ) : List ℚ :=
  spectrum.map (fun amp => if amp < noise_level then 0 else amp)

/-- `frequency_bands(spectrum, bands)`: after filtering through `remove_noise`
with noise level `0.5`, each band is mapped to the sum of the Python slice
`filtered_spectrum[int(low):int(high)]` — the band bounds are used directly as
bin indices.  The band dictionary is modelled as an association list whose
bounds are integers (the Python code truncates the bound values with `int`,
here they are already integral).  The unused local `band_width = 19980` of the
source is dropped. -/
def frequency_bands (spectrum : List ℚ) (bands : List (String × ℤ × ℤ)) :
    List (String × ℚ) :=
  let filtered_spectrum := remove_noise spectrum (1/2)
  bands.map (fun b => (b.1, (pySlice filtered_spectrum b.2.1 b.2.2).sum))

/-- Value reported for a named band (0 when the band is absent). -/
def bandVal (r : List (String × ℚ)) (name : String) : ℚ :=
  ((r.find? (fun p => p.1 = name)).map (fun p => p.2)).getD 0

/-- Modelled from the spec: the band-analysis step as the specification words
it — "sums the magnitudes of the spectrum bins whose frequency (derived from
the bin's position and the spectrum's sample rate/length) falls within the
band's [low, high) range", with bin `i` of a spectrum of length `L` at
frequency `i * rate / (2 * L)` (spectrum = the non-negative-frequency half of
a length-`2L` transform, bin width `rate / (2L)` as in §4.4).  Used only to
compare against the source's `frequency_bands`. -/
def frequency_bands_freq (spectrum : List ℚ) (bands : List (String × ℤ × ℤ))
    (sampling_rate : ℚ) : List (String × ℚ) :=
  let filtered_spectrum := remove_noise spectrum (1/2)
  bands.map (fun b =>
    (b.1, ∑ i ∈ Finset.range spectrum.length,
      if (b.2.1 : ℚ) ≤ (i : ℚ) * sampling_rate / (2 * spectrum.length) ∧
         (i : ℚ) * sampling_rate / (2 * spectrum.length) < (b.2.2 : ℚ)
       then filtered_spectrum.getD i 0 else 0))

/-! ### Sum of a slice as an indicator sum -/

theorem sum_drop_take (l : List ℚ) (a b : Nat) :
    ((l.take b).drop a).sum =
      ∑ i ∈ Finset.range l.length,
        if a ≤ i ∧ i < b then l.getD i 0 else 0 := by
  induction l generalizing a b with
  | nil => simp
  | cons x xs ih =>
    cases b with
    | zero => simp
    | succ b =>
      cases a with
      | zero =>
        simp only [List.length_cons]
        rw [Finset.sum_range_succ']
        simp only [List.getD_cons_succ, List.getD_cons_zero, List.take_succ_cons,
          List.drop_zero, List.sum_cons]
        rw [show (if 0 ≤ 0 ∧ 0 < b + 1 then x else 0) = x by simp]
        have h0 := ih 0 b
        simp only [List.drop_zero] at h0
        rw [h0, add_comm]
        congr 1
        apply Finset.sum_congr rfl
        intro i _
        congr 1
        simp only [eq_iff_iff]
        omega
      | succ a =>
        simp only [List.length_cons]
        rw [Finset.sum_range_succ']
        simp only [List.getD_cons_succ, List.getD_cons_zero, List.take_succ_cons,
          List.drop_succ_cons]
        rw [show (if a + 1 ≤ 0 ∧ 0 < b + 1 then x else 0) = 0 by simp, add_zero]
        rw [ih a b]
        apply Finset.sum_congr rfl
        intro i _
        congr 1
        simp only [eq_iff_iff]
        omega

theorem sum_pySlice_nonneg_bounds (l : List ℚ) (lo hi : ℤ)
    (hlo : 0 ≤ lo) (hhi : 0 ≤ hi) :
    (pySlice l lo hi).sum =
      ∑ i ∈ Finset.range l.length,
        if lo ≤ (i : ℤ) ∧ (i : ℤ) < hi then l.getD i 0 else 0 := by
  have hdrop : (l.take (pySliceStart l.length hi)).drop (pySliceStart l.length lo) =
      (l.take hi.toNat).drop lo.toNat := by
    unfold pySliceStart
    rw [if_neg (by omega), if_neg (by omega)]
    rcases le_total hi.toNat l.length with h | h
    · rw [min_eq_left h]
      rcases le_total lo.toNat (l.take hi.toNat).length with h2 | h2
      · rcases le_total lo.toNat l.length with h3 | h3
        · rw [min_eq_left h3]
        · rw [min_eq_right h3]
          have : (l.take hi.toNat).length ≤ l.length := by
            simp [List.length_take]
          rw [List.drop_eq_nil_of_le (by omega), List.drop_eq_nil_of_le (by omega)]
      · rw [List.drop_eq_nil_of_le (by simpa using h2)]
        have : min lo.toNat l.length ≥ (l.take hi.toNat).length := by
          simp only [List.length_take] at h2 ⊢
          omega
        rw [List.drop_eq_nil_of_le (by omega)]
    · rw [min_eq_right h, List.take_of_length_le h, List.take_of_length_le (by omega)]
      rcases le_total lo.toNat l.length with h3 | h3
      · rw [min_eq_left h3]
      · rw [min_eq_right h3, List.drop_eq_nil_of_le (by omega),
          List.drop_eq_nil_of_le (by omega)]
  unfold pySlice
  rw [hdrop, sum_drop_take]
  apply Finset.sum_congr rfl
  intro i _
  congr 1
  simp only [eq_iff_iff]
  omega

/-! ## `rtmaii/worker.py`: the worker run loops

Each worker owns a `WorkQueue` (the spec's FreshnessQueue; `rtmaii/workqueue.py`
is not part of the analysed sources) and loops: pop one item, process it,
publish the result.  The queue hand-off is modelled by the finite sequence of
values that successive `queue.get()` calls deliver; `none` stands for the
`None` shutdown sentinel.  A processing step is a function
`Option input → Except PyError output`: `Except.error` models a Python
exception raised by the step, which — the loops contain no `try`/`except` —
propagates and kills the thread. -/

/-- Final state of a worker thread after consuming a pop sequence. -/
inductive Outcome where
  | blocked : Outcome
  | terminated : Outcome
  | crashed : PyError → Outcome
deriving DecidableEq

/-- Generic worker loop over the sequence of popped items.  `checksSentinel`
records whether the loop body starts with `if item is None: break` (only
`SpectrogramWorker.run` does).  Returns the list of published results and the
final state: `blocked` when the pop sequence is exhausted with the loop still
waiting on the queue, `terminated` on a sentinel break, `crashed e` when a
step raised. -/
def runLoop {ι ο : Type} (checksSentinel : Bool)
    (step : Option ι → Except PyError ο) :
    List (Option ι) → List ο × Outcome
  | [] => ([], Outcome.blocked)
  | item :: rest =>
    if checksSentinel && item.isNone then ([], Outcome.terminated)
    else
      match step item with
      | Except.error e => ([], Outcome.crashed e)
      | Except.ok out =>
        let r := runLoop checksSentinel step rest
        (out :: r.1, r.2)

/-- Number of parameters of `frequency.frequency_bands` — `(spectrum, bands)`. -/
def frequencyBandsParamCount : Nat := 2

/-- Number of arguments `BandsWorker.run` passes to it —
`(abs(spectrum), self.bands_of_interest, self.sampling_rate)`. -/
def bandsCallArgCount : Nat := 3

/-- One iteration of `BandsWorker.run`.  On the `None` sentinel, `abs(None)`
raises `TypeError`.  On a real spectrum, the call
`frequency.frequency_bands(abs(spectrum), self.bands_of_interest,
self.sampling_rate)` raises `TypeError`, because `frequency_bands` is defined
with two parameters and is called with three. -/
def bandsStep (bands : List (String × ℤ × ℤ)) (item : Option (List ℚ)) :
    Except PyError (List (String × ℚ)) :=
  match item with
  | none => Except.error PyError.typeError
  | some s =>
    if bandsCallArgCount = frequencyBandsParamCount then
      Except.ok (frequency_bands (s.map (fun v => |v|)) bands)
    else Except.error PyError.typeError

/-- `BandsWorker.run`: `while True` with no sentinel check. -/
def bandsRun (bands : List (String × ℤ × ℤ)) (pops : List (Option (List ℚ))) :
    List (List (String × ℚ)) × Outcome :=
  runLoop false (bandsStep bands) pops

/-- One iteration of `AutoCorrelationWorker.run`.  Its first statement is
`spectral.convolve_spectrum(signal)`, but the `spectral` module defines
`convolve_signal`, not `convolve_spectrum`; the attribute lookup raises
`AttributeError` on every iteration, before the popped item is examined. -/
def autoCorrStep (_item : Option (List ℚ)) : Except PyError ℚ :=
  Except.error PyError.attributeError

/-- `AutoCorrelationWorker.run`: `while True` with no sentinel check. -/
def autoCorrRun (pops : List (Option (List ℚ))) : List ℚ × Outcome :=
  runLoop false autoCorrStep pops

/-- `SpectrogramWorker.run`: the only run loop with the sentinel check
`if ffts is None: break`.  Its per-frame body ends in the external genre
classifier (out of scope per the spec), so the whole body is a parameter
`classify`; the `none` branch of the step is unreachable because the loop
breaks on the sentinel first (the `typeError` there is arbitrary). -/
def spectrogramRun {σ : Type} (classify : List ℚ → Except PyError σ)
    (pops : List (Option (List ℚ))) : List σ × Outcome :=
  runLoop true
    (fun item =>
      match item with
      | none => Except.error PyError.typeError
      | some x => classify x) pops

/-! ## `PitchWorker.__init__` (worker.py lines 28–31) -/

/-- A parameter in a Python function signature: its name and whether it has a
default value. -/
structure PyParam where
  pname : String
  hasDefault : Bool

/-- Python call binding for a call with `posCount` positional arguments and
the listed keyword names.  Binding succeeds iff the positional arguments do
not overflow the parameter list, every keyword names a parameter that is not
already bound positionally, and every parameter left unbound has a default.
Otherwise the call raises `TypeError`. -/
def bindOk (params : List PyParam) (posCount : Nat) (kwNames : List String) : Bool :=
  decide (posCount ≤ params.length) &&
  kwNames.all (fun k => ((params.drop posCount).map PyParam.pname).contains k) &&
  (params.drop posCount).all (fun p => p.hasDefault || kwNames.contains p.pname)

/-- Parameters of `Worker.__init__(self, channel_id: int, queue_length: int = 1)`. -/
def workerInitParams : List PyParam :=
  [⟨"self", false⟩, ⟨"channel_id", false⟩, ⟨"queue_length", true⟩]

/-- Result of running a constructor. -/
inductive InitOutcome where
  | instanceCreated : InitOutcome
  | raisedTypeError : InitOutcome
deriving DecidableEq

/-- `PitchWorker.__init__(self, channel_id)`: its body is the single call
`Worker.__init__(self, args=(), kwargs=None)` — one positional argument
(`self`) plus keywords `args` and `kwargs`.  When binding fails, `TypeError`
is raised before `Worker.__init__`'s body (which starts the worker thread)
can run, so no instance is produced. -/
def pitchWorkerInit (_channel_id : ℤ) : InitOutcome :=
  if bindOk workerInitParams 1 ["args", "kwargs"] then InitOutcome.instanceCreated
  else InitOutcome.raisedTypeError

/-! ## `rtmaii/analysis/spectral.py`

The rational-valued part (FFT lengths, convolution, filtering, the butterworth
wrapper) is embedded over an arbitrary field or over `ℚ`; the parts involving
square roots and logarithms (`normalizorFFT`, `convertingMagnitudeToDecibel`)
are embedded over `ℝ` further below. -/

/-- The discrete Fourier transform sums computed by `scipy.fftpack.fft`:
entry `k` is `∑ n, x_n · ω^(k·n)` where `ω` is the primitive root of unity the
library uses.  The root is a parameter here so that the definition stays
executable; every proved property holds for all `ω`. -/
def dft {K : Type} [Field K] (ω : K) (x : List K) : List K :=
  (List.range x.length).map
    (fun k => ∑ n ∈ Finset.range x.length, x.getD n 0 * ω ^ (k * n))

/-- `spectrum_transform(signal)`: `fft(signal) / signal_length` then
`[:signal_length // 2]`. -/
def spectrum_transform {K : Type} [Field K] (ω : K) (signal : List K) : List K :=
  ((dft ω signal).map (fun z => z / (signal.length : K))).take (signal.length / 2)

/-- Output prefix of `scipy.signal.lfilter`'s direct-form difference equation
`a₀·y[n] = ∑ₖ bₖ·x[n−k] − ∑ₖ₌₁ aₖ·y[n−k]` with zero initial conditions; the
`k ≤ n` guards keep the out-of-range taps at zero. -/
def lfilterY {K : Type} [Field K] (num den x : List K) : Nat → List K
  | 0 => []
  | Nat.succ n =>
    let ys := lfilterY num den x n
    ys ++ [((∑ k ∈ Finset.range num.length,
              if k ≤ n then num.getD k 0 * x.getD (n - k) 0 else 0) -
            (∑ k ∈ Finset.Ico 1 den.length,
              if k ≤ n then den.getD k 0 * ys.getD (n - k) 0 else 0)) /
           den.getD 0 0]

/-- `scipy.signal.lfilter(numerator, denominator, signal)`: one output sample
per input sample. -/
def lfilter {K : Type} [Field K] (num den x : List K) : List K :=
  lfilterY num den x x.length

/-- `band_pass_filter(signal, numerator, denominator)`. -/
def band_pass_filter {K : Type} [Field K] (signal num den : List K) : List K :=
  lfilter num den signal

/-- `spectrum(signal, window, bp_filter)`: elementwise `signal * window`
(the numpy product requires equal lengths; properties below assume them
equal), optionally the band-pass filter, then `spectrum_transform`. -/
def spectrum {K : Type} [Field K] (ω : K) (signal window : List K)
    (bp_filter : Option (List K × List K)) : List K :=
  let windowed_signal := List.zipWith (fun a b => a * b) signal window
  let filtered_signal :=
    match bp_filter with
    | none => windowed_signal
    | some f => band_pass_filter windowed_signal f.1 f.2
  spectrum_transform ω filtered_signal

/-- Full linear convolution, the `mode='full'` result of
`scipy.signal.fftconvolve(x, y)`: length `x.length + y.length − 1`, entry `k`
is `∑_{i+j=k} x_i·y_j`. -/
def full_convolve (x y : List ℚ) : List ℚ :=
  (List.range (x.length + y.length - 1)).map
    (fun k => ∑ i ∈ Finset.range (k + 1), x.getD i 0 * y.getD (k - i) 0)

/-- `convolve_signal(signal)`: `fftconvolve(signal, signal[::-1], mode='full')`
then `convol[len(convol) // 2:]`. -/
def convolve_signal (x : List ℚ) : List ℚ :=
  let convol := full_convolve x x.reverse
  convol.drop (convol.length / 2)

/-- `True` on `Except.ok`. -/
def exceptIsOk {ε α : Type} : Except ε α → Bool
  | Except.ok _ => true
  | Except.error _ => false

/-- `scipy.signal.butter(order, [low, high], btype='bandpass')`, modelled from
the library's documented contract: it raises
`ValueError: Digital filter critical frequencies must be 0 < Wn < 1` iff
either normalized critical frequency lies outside the open interval `(0, 1)`;
it performs no ordering check between the two band edges.  The polynomial
coefficients themselves are opaque external numerics, so the successful result
carries the validated normalized pair. -/
def butter (_order : ℕ) (low high : ℚ) : Except PyError (ℚ × ℚ) :=
  if 0 < low ∧ low < 1 ∧ 0 < high ∧ high < 1 then Except.ok (low, high)
  else Except.error PyError.valueError

/-- `butter_bandpass(low_cut_off, high_cut_off, sampling_rate, order=5)`:
normalizes both cutoffs by the Nyquist frequency `0.5 * sampling_rate` and
delegates to `butter`; the source performs no validation of its own. -/
def butter_bandpass (low_cut_off high_cut_off sampling_rate : ℚ) (order : ℕ) :
    Except PyError (ℚ × ℚ) :=
  let nyquist_frequency := (1/2) * sampling_rate
  let low := low_cut_off / nyquist_frequency
  let high := high_cut_off / nyquist_frequency
  butter order low high

/-! ### `normalizorFFT` over `ℝ` -/

/-- Squared Euclidean norm of a vector of magnitudes. -/
def normSq (x : List ℝ) : ℝ := (x.map (fun v => v * v)).sum

/-- `normalizorFFT(fft)`: `numpy.linalg.norm` is the Euclidean norm
`√(normSq)`; if it is `0` the input is returned unchanged, otherwise every
entry is divided by it. -/
noncomputable def normalizorFFT (fft : List ℝ) : List ℝ :=
  if Real.sqrt (normSq fft) = 0 then fft
  else fft.map (fun v => v / Real.sqrt (normSq fft))

/-! ### `convertingMagnitudeToDecibel` over `ℝ`

`numpy.log10` of `0.0` returns `-inf` with a `RuntimeWarning` — it does not
raise — so the `try`/`except` around it in the source is dead code for the
numeric inputs it receives, and the subsequent `.clip(-120)` turns the `-inf`
into `-120`.  The IEEE value `-inf` is modelled explicitly. -/

/-- A numpy float that is either `-inf` or an ordinary real. -/
inductive NpFloat where
  | neginf : NpFloat
  | val : ℝ → NpFloat

/-- `numpy.log10` on a non-negative input: `-inf` at `0`, otherwise the real
base-10 logarithm.  (All call sites below feed it `|v| · 2 / sum(window)`
with a positive window sum, so the negative-input NaN case never arises.) -/
noncomputable def npLog10 (x : ℝ) : NpFloat :=
  if x = 0 then NpFloat.neginf else NpFloat.val (Real.logb 10 x)

/-- Multiplication of a numpy float by a positive constant (here `20`):
`-inf` stays `-inf`. -/
def npScale (c : ℝ) : NpFloat → NpFloat
  | NpFloat.neginf => NpFloat.neginf
  | NpFloat.val r => NpFloat.val (c * r)

/-- `.clip(m)` with only a lower bound, landing back in the reals:
`-inf` clips to `m`. -/
def npClipMin (m : ℝ) : NpFloat → ℝ
  | NpFloat.neginf => m
  | NpFloat.val r => max m r

/-- `convertingMagnitudeToDecibel(ffts, window)`:
`ffts = absolute(ffts) * 2.0 / sum(window)`, then the no-op division by
`power(2.0, 8*0) = 1`, then `(20 * log10(ffts)).clip(-120)`. -/
noncomputable def convertingMagnitudeToDecibel (ffts window : List ℝ) : List ℝ :=
  let scaled := ffts.map (fun v => |v| * 2 / window.sum / 2 ^ (8 * 0))
  scaled.map (fun m => npClipMin (-120) (npScale 20 (npLog10 m)))

/-! ## Worker-loop lemmas -/

theorem runLoop_sentinel_checked {ι ο : Type} (step : Option ι → Except PyError ο)
    (rest : List (Option ι)) :
    runLoop true step (none :: rest) = ([], Outcome.terminated) := rfl

theorem runLoop_cons_ok {ι ο : Type} (c : Bool) (step : Option ι → Except PyError ο)
    (x : ι) (rest : List (Option ι)) (a : ο) (h : step (some x) = Except.ok a) :
    runLoop c step (some x :: rest) =
      (a :: (runLoop c step rest).1, (runLoop c step rest).2) := by
  simp [runLoop, h]

/-- C10: for every `channel_id`, constructing `PitchWorker(channel_id)` raises
`TypeError` before the worker thread begins looping, because
`Worker.__init__` is invoked with keyword arguments `args` and `kwargs` that
it does not accept; no `PitchWorker` instance can ever be created through the
public constructor. -/
theorem C10_pitchworker_init_raises (channel_id : ℤ) :
    pitchWorkerInit channel_id = InitOutcome.raisedTypeError ∧
    bindOk workerInitParams 1 ["args", "kwargs"] = false := by
  exact ⟨rfl, rfl⟩

/-- C1: evaluation of the per-frame step at a well-formed input.  The claim
says no exception may escape the per-frame processing step, but the loops of
`BandsWorker.run` and `AutoCorrelationWorker.run` contain no exception
handling at all, and in fact their first processing statement raises on every
input (`frequency_bands` called with three arguments but defined with two;
`spectral.convolve_spectrum` does not exist), so the thread crashes on the
very first popped frame, publishing nothing. -/
theorem C1_workers_crash_on_first_frame :
    bandsRun [("low", 0, 2)] [some [1, 1]] =
      ([], Outcome.crashed PyError.typeError) ∧
    autoCorrRun [some [1, 1, 1]] =
      ([], Outcome.crashed PyError.attributeError) := by
  exact ⟨rfl, rfl⟩

/-- C2 counterexample: `BandsWorker.run` has no sentinel check, so popping the
shutdown sentinel does not transition the worker to Terminated (the loop dies
attempting `abs(None)` instead). -/
theorem C2_counterexample :
    (bandsRun [] [none]).2 ≠ Outcome.terminated := by
  decide

/-- C2 as amended: only `SpectrogramWorker.run` checks for the `None`
sentinel; once it pops the sentinel the loop exits cleanly (Terminated) and
its published output is independent of anything pushed afterwards.  The other
worker variants do not check for the sentinel; popping it makes the
processing step raise, which also ends all queue activity, but by a crash
rather than a transition to Terminated. -/
theorem C2_amended_sentinel {σ : Type} (classify : List ℚ → Except PyError σ)
    (pre post : List (Option (List ℚ)))
    (h : ∀ i ∈ pre, ∃ x a, i = some x ∧ classify x = Except.ok a) :
    spectrogramRun classify (pre ++ none :: post) =
      spectrogramRun classify (pre ++ [none]) ∧
    (spectrogramRun classify (pre ++ none :: post)).2 = Outcome.terminated := by
  induction pre with
  | nil => exact ⟨rfl, rfl⟩
  | cons i pre ih =>
    obtain ⟨x, a, hi, hcl⟩ := h i (by simp)
    subst hi
    have step_ok : (fun item => match item with
        | none => Except.error PyError.typeError
        | some x => classify x : Option (List ℚ) → Except PyError σ) (some x) =
        Except.ok a := hcl
    have ih2 := ih (fun j hj => h j (by simp [hj]))
    constructor
    · simp only [List.cons_append]
      unfold spectrogramRun
      rw [runLoop_cons_ok _ _ _ _ _ step_ok, runLoop_cons_ok _ _ _ _ _ step_ok]
      have e1 := ih2.1
      unfold spectrogramRun at e1
      rw [e1]
    · simp only [List.cons_append]
      unfold spectrogramRun
      rw [runLoop_cons_ok _ _ _ _ _ step_ok]
      have e2 := ih2.2
      unfold spectrogramRun at e2
      exact e2

theorem C2_amended_sentinel_witness :
    spectrogramRun (fun s => Except.ok s.sum) [some [1, 2], none, some [3]] =
      spectrogramRun (fun s => Except.ok s.sum) [some [1, 2], none] ∧
    (spectrogramRun (fun s => Except.ok s.sum) [some [1, 2], none, some [3]]).2 =
      Outcome.terminated := by
  exact C2_amended_sentinel (fun s => Except.ok s.sum) [some [1, 2]] [some [3]]
    (by intro i hi; simp only [List.mem_singleton] at hi; subst hi
        exact ⟨[1, 2], ([1, 2] : List ℚ).sum, rfl, rfl⟩)

/-- C7 counterexample: `low ≥ high` alone does not make the construction
fail — with `low = 3000 > high = 300` at sampling rate `8000`, both
normalized cutoffs lie in `(0, 1)` and the filter design succeeds. -/
theorem C7_counterexample :
    exceptIsOk (butter_bandpass 3000 300 8000 5) = true := by
  unfold butter_bandpass butter
  rw [if_pos (by norm_num)]
  rfl

/-- C7 as amended: for a positive sampling rate, band-pass filter construction
fails (with the library's `ValueError`, there is no dedicated `InvalidRange`)
iff either cutoff lies outside the open interval `(0, Nyquist)` with
`Nyquist = sampleRate/2`; `lowHz ≥ highHz` by itself causes no failure, and
the repository's own code performs no validation of its own. -/
theorem C7_amended (low high rate : ℚ) (order : ℕ) (hr : 0 < rate) :
    exceptIsOk (butter_bandpass low high rate order) = true ↔
    (0 < low ∧ low < rate / 2 ∧ 0 < high ∧ high < rate / 2) := by
  have hn : (0 : ℚ) < 1 / 2 * rate := by linarith
  have heq : (1 / 2 * rate : ℚ) = rate / 2 := by ring
  have h1 : (0 < low / (1 / 2 * rate)) ↔ 0 < low := by
    rw [lt_div_iff₀ hn]; simp
  have h3 : (0 < high / (1 / 2 * rate)) ↔ 0 < high := by
    rw [lt_div_iff₀ hn]; simp
  unfold butter_bandpass butter
  dsimp only
  split_ifs with h
  · simp only [exceptIsOk, true_iff]
    obtain ⟨a, b, c, d⟩ := h
    refine ⟨h1.mp a, ?_, h3.mp c, ?_⟩
    · have := (div_lt_one hn).mp b; linarith
    · have := (div_lt_one hn).mp d; linarith
  · simp only [exceptIsOk, Bool.false_eq_true, false_iff]
    intro hd
    exact h ⟨h1.mpr hd.1, (div_lt_one hn).mpr (by linarith [hd.2.1]),
      h3.mpr hd.2.2.1, (div_lt_one hn).mpr (by linarith [hd.2.2.2])⟩

theorem C7_amended_witness :
    (0 : ℚ) < 1000 ∧
    (exceptIsOk (butter_bandpass 100 200 1000 5) = true ↔
      ((0 : ℚ) < 100 ∧ (100 : ℚ) < 1000 / 2 ∧ (0 : ℚ) < 200 ∧ (200 : ℚ) < 1000 / 2)) := by
  exact ⟨by norm_num, C7_amended 100 200 1000 5 (by norm_num)⟩

/-! ## Band analysis (C3, C9) -/

theorem remove_noise_length (s : List ℚ) (nl : ℚ) :
    (remove_noise s nl).length = s.length := by
  simp [remove_noise]

theorem remove_noise_getD (s : List ℚ) (nl : ℚ) (j : ℕ) (hj : j < s.length) :
    (remove_noise s nl).getD j 0 = if s.getD j 0 < nl then 0 else s.getD j 0 := by
  unfold remove_noise
  rw [List.getD_eq_getElem _ _ (by simpa [remove_noise_length] using hj),
    List.getD_eq_getElem _ _ hj, List.getElem_map]

/-- C3 counterexample: with spectrum `[1,1,1,1]`, band `a = [0,4)` and sample
rate `16`, the bins at frequencies in `[0,4)` are only bins `0` and `1`
(bin width `16/(2·4) = 2 Hz`), so the claimed frequency-derived computation
yields `2`, but the code slices by raw bin index and yields `4`. -/
theorem C3_counterexample :
    bandVal (frequency_bands [1, 1, 1, 1] [("a", 0, 4)]) "a" = 4 ∧
    bandVal (frequency_bands_freq [1, 1, 1, 1] [("a", 0, 4)] 16) "a" = 2 ∧
    (4 : ℚ) ≠ 2 := by
  refine ⟨?_, ?_, by norm_num⟩
  · norm_num [bandVal, frequency_bands, remove_noise, pySlice, pySliceStart,
      List.find?, Int.toNat, List.take_succ_cons, List.take_zero, List.sum_cons,
      List.sum_nil]
  · norm_num [bandVal, frequency_bands_freq, remove_noise, List.find?,
      Finset.sum_range_succ, Finset.sum_range_zero]

/-- C3 as amended: for every spectrum and every band definition with
non-negative bounds, the band-analysis step computes the band's energy as the
sum, over bin indices `i` with `int(low) ≤ i < int(high)`, of the
noise-filtered spectrum — the band bounds are used directly as bin indices
(a Python slice), with no frequency derived from the sample rate or spectrum
length; the noise filtering replaces every entry strictly below the fixed
floor `0.5` by `0`. -/
theorem C3_amended (s : List ℚ) (bands : List (String × ℤ × ℤ))
    (name : String) (lo hi : ℤ) (hmem : (name, lo, hi) ∈ bands)
    (hlo : 0 ≤ lo) (hhi : 0 ≤ hi) :
    (name, ∑ i ∈ Finset.range s.length,
        if lo ≤ (i : ℤ) ∧ (i : ℤ) < hi
        then (remove_noise s (1/2)).getD i 0 else 0) ∈
      frequency_bands s bands := by
  unfold frequency_bands
  refine List.mem_map.mpr ⟨(name, lo, hi), hmem, ?_⟩
  dsimp only
  congr 1
  rw [sum_pySlice_nonneg_bounds _ _ _ hlo hhi, remove_noise_length]

theorem C3_amended_witness :
    (("a", 0, 2) ∈ [("a", (0 : ℤ), (2 : ℤ))]) ∧
    ("a", ∑ i ∈ Finset.range ([(1 : ℚ), 1, 1, 1]).length,
        if (0 : ℤ) ≤ (i : ℤ) ∧ (i : ℤ) < 2
        then (remove_noise [1, 1, 1, 1] (1/2)).getD i 0 else 0) ∈
      frequency_bands [1, 1, 1, 1] [("a", 0, 2)] := by
  exact ⟨by simp, C3_amended [1, 1, 1, 1] [("a", 0, 2)] "a" 0 2 (by simp)
    (by norm_num) (by norm_num)⟩

/-! ## Spectrum lengths (C4) and self-convolution (C8) -/

theorem dft_length {K : Type} [Field K] (ω : K) (x : List K) :
    (dft ω x).length = x.length := by
  simp [dft]

theorem spectrum_transform_length {K : Type} [Field K] (ω : K) (x : List K) :
    (spectrum_transform ω x).length = x.length / 2 := by
  simp only [spectrum_transform, List.length_take, List.length_map, dft_length]
  omega

theorem lfilterY_length {K : Type} [Field K] (num den x : List K) (n : ℕ) :
    (lfilterY num den x n).length = n := by
  induction n with
  | zero => rfl
  | succ n ih => simp [lfilterY, ih]

theorem lfilter_length {K : Type} [Field K] (num den x : List K) :
    (lfilter num den x).length = x.length :=
  lfilterY_length num den x x.length

/-- C4: for every non-empty input signal of length `L` matched by a window of
the same length `L`, the spectrum transform returns exactly `⌊L/2⌋` elements
(the non-negative-frequency half of the length-normalized Fourier transform),
with or without a band-pass filter.  (Positivity of `L` is assumed because
the library rejects a zero-point FFT.) -/
theorem C4_spectrum_length {K : Type} [Field K] (ω : K) (signal window : List K)
    (bp_filter : Option (List K × List K))
    (hlen : signal.length = window.length) (_hpos : 0 < signal.length) :
    (spectrum ω signal window bp_filter).length = signal.length / 2 ∧
    (spectrum_transform ω signal).length = signal.length / 2 := by
  refine ⟨?_, spectrum_transform_length ω signal⟩
  unfold spectrum
  cases bp_filter with
  | none =>
    dsimp only
    rw [spectrum_transform_length, List.length_zipWith, hlen, Nat.min_self]
  | some f =>
    dsimp only
    rw [spectrum_transform_length, band_pass_filter, lfilter_length,
      List.length_zipWith, hlen, Nat.min_self]

theorem C4_witness :
    ([(1 : ℚ), 2, 3, 4]).length = ([(1 : ℚ), 1, 1, 1]).length ∧
    0 < ([(1 : ℚ), 2, 3, 4]).length ∧
    (spectrum (2 : ℚ) [1, 2, 3, 4] [1, 1, 1, 1] none).length =
      ([(1 : ℚ), 2, 3, 4]).length / 2 ∧
    (spectrum_transform (2 : ℚ) [(1 : ℚ), 2, 3, 4]).length =
      ([(1 : ℚ), 2, 3, 4]).length / 2 := by
  have h := C4_spectrum_length (2 : ℚ) [1, 2, 3, 4] [1, 1, 1, 1] none rfl (by norm_num)
  exact ⟨rfl, by norm_num, h.1, h.2⟩

/-- C8: for every non-empty input signal of length `L`, `convolve_signal`
computes the full self-convolution (length `2L − 1`) and returns only its
half starting at the zero-lag middle index, whose length equals `L`; its
first returned entry is the zero-lag term `∑ xᵢ²`. -/
theorem C8_convolve_signal (x : List ℚ) (hx : x ≠ []) :
    (full_convolve x x.reverse).length = 2 * x.length - 1 ∧
    convolve_signal x =
      (full_convolve x x.reverse).drop ((2 * x.length - 1) / 2) ∧
    (convolve_signal x).length = x.length ∧
    (convolve_signal x).getD 0 0 = ∑ i ∈ Finset.range x.length, x.getD i 0 ^ 2 := by
  have hL : 1 ≤ x.length := List.length_pos.mpr hx
  have hlen : (full_convolve x x.reverse).length = 2 * x.length - 1 := by
    simp only [full_convolve, List.length_map, List.length_range, List.length_reverse]
    omega
  refine ⟨hlen, ?_, ?_, ?_⟩
  · unfold convolve_signal
    dsimp only
    rw [hlen]
  · unfold convolve_signal
    dsimp only
    rw [List.length_drop, hlen]
    omega
  · unfold convolve_signal
    dsimp only
    rw [List.getD_eq_getElem?_getD, List.getElem?_drop]
    rw [show (full_convolve x x.reverse).length / 2 + 0 = x.length - 1 by
      rw [hlen]; omega]
    have hb : x.length - 1 < (full_convolve x x.reverse).length := by
      rw [hlen]; omega
    rw [List.getElem?_eq_getElem hb]
    have hb2 : x.length - 1 <
        (List.range (x.length + x.reverse.length - 1)).length := by
      simpa [full_convolve] using hb
    unfold full_convolve
    rw [List.getElem_map, List.getElem_range, Option.getD_some]
    rw [show x.length - 1 + 1 = x.length by omega]
    apply Finset.sum_congr rfl
    intro i hi
    rw [Finset.mem_range] at hi
    have h1 : x.length - 1 - i < x.reverse.length := by
      rw [List.length_reverse]; omega
    rw [List.getD_eq_getElem _ _ hi, List.getD_eq_getElem _ _ h1,
      List.getElem_reverse]
    have hidx : x.length - 1 - (x.length - 1 - i) = i := by omega
    simp only [hidx]
    exact (pow_two _).symm

theorem C8_witness :
    ([(1 : ℚ), 2] ≠ []) ∧ (convolve_signal [(1 : ℚ), 2]).length = ([(1 : ℚ), 2]).length := by
  exact ⟨by simp, (C8_convolve_signal [1, 2] (by simp)).2.2.1⟩

/-! ## Spectrum normalization (C5) -/

theorem normSq_nonneg (x : List ℝ) : 0 ≤ normSq x := by
  induction x with
  | nil => simp [normSq]
  | cons v xs ih =>
    simp only [normSq, List.map_cons, List.sum_cons] at ih ⊢
    have := mul_self_nonneg v
    linarith

theorem normSq_map_div (x : List ℝ) (c : ℝ) (hc : c ≠ 0) :
    normSq (x.map (fun v => v / c)) = normSq x / (c * c) := by
  induction x with
  | nil => simp [normSq]
  | cons v xs ih =>
    simp only [normSq, List.map_cons, List.sum_cons] at ih ⊢
    rw [ih]
    field_simp

/-- C5: the spectrum normalization is idempotent — in exact real arithmetic,
so in particular up to floating tolerance — and on an input of Euclidean
norm `0` (the all-zero spectrum) it returns its input unchanged. -/
theorem C5_normalize (x : List ℝ) :
    normalizorFFT (normalizorFFT x) = normalizorFFT x ∧
    (Real.sqrt (normSq x) = 0 → normalizorFFT x = x) := by
  constructor
  · by_cases h : Real.sqrt (normSq x) = 0
    · have hzero : normalizorFFT x = x := by
        unfold normalizorFFT
        rw [if_pos h]
      rw [hzero]
      exact hzero
    · have hs : 0 < Real.sqrt (normSq x) :=
        lt_of_le_of_ne (Real.sqrt_nonneg _) (Ne.symm h)
      have hnormSq : normSq x ≠ 0 := by
        intro h0
        exact h (by rw [h0, Real.sqrt_zero])
      have hy : normSq (x.map (fun v => v / Real.sqrt (normSq x))) = 1 := by
        rw [normSq_map_div _ _ (ne_of_gt hs),
          Real.mul_self_sqrt (normSq_nonneg x), div_self hnormSq]
      have hstep : normalizorFFT x = x.map (fun v => v / Real.sqrt (normSq x)) := by
        unfold normalizorFFT
        rw [if_neg h]
      rw [hstep]
      unfold normalizorFFT
      rw [if_neg (by rw [hy, Real.sqrt_one]; norm_num), hy, Real.sqrt_one]
      simp
  · intro h
    unfold normalizorFFT
    rw [if_pos h]

theorem C5_normalize_witness :
    normalizorFFT (normalizorFFT [(0 : ℝ), 0]) = normalizorFFT [(0 : ℝ), 0] ∧
    normalizorFFT [(0 : ℝ), 0] = [(0 : ℝ), 0] := by
  have h := C5_normalize [(0 : ℝ), 0]
  exact ⟨h.1, h.2 (by norm_num [normSq])⟩

/-! ## Decibel conversion (C6) -/

/-- C6: the decibel conversion scales each magnitude by `2/sum(window)`
(the further division by `2^(8·0) = 1` is a no-op), applies `20·log10`, and
clips at a floor of `−120`; an entry whose input magnitude is exactly `0`
maps to `−120` (numpy's `log10(0)` is `−inf`, not an exception, and
`.clip(-120)` turns `−inf` into `−120`), never to an undefined value or
to `0`. -/
theorem C6_decibel (ffts window : List ℝ) (hw : 0 < window.sum)
    (i : ℕ) (hi : i < ffts.length) :
    (convertingMagnitudeToDecibel ffts window).length = ffts.length ∧
    (ffts.getD i 0 = 0 →
      (convertingMagnitudeToDecibel ffts window).getD i 0 = -120) ∧
    (ffts.getD i 0 ≠ 0 →
      (convertingMagnitudeToDecibel ffts window).getD i 0 =
        max (-120) (20 * Real.logb 10 (|ffts.getD i 0| * 2 / window.sum))) := by
  have hlen : (convertingMagnitudeToDecibel ffts window).length = ffts.length := by
    simp [convertingMagnitudeToDecibel]
  have hentry : (convertingMagnitudeToDecibel ffts window).getD i 0 =
      npClipMin (-120) (npScale 20
        (npLog10 (|ffts.getD i 0| * 2 / window.sum / 2 ^ (8 * 0)))) := by
    unfold convertingMagnitudeToDecibel
    dsimp only
    rw [List.getD_eq_getElem _ _ (by simpa using hi)]
    rw [List.getElem_map, List.getElem_map, List.getD_eq_getElem _ _ hi]
  refine ⟨hlen, ?_, ?_⟩
  · intro h0
    rw [hentry, h0]
    norm_num [npLog10, npScale, npClipMin]
  · intro hne
    have hm : 0 < |ffts.getD i 0| * 2 / window.sum / 2 ^ (8 * 0) := by
      have habs : 0 < |ffts.getD i 0| := abs_pos.mpr hne
      positivity
    rw [hentry]
    unfold npLog10
    rw [if_neg hm.ne']
    simp only [npScale, npClipMin]
    norm_num

theorem C6_decibel_witness :
    (0 : ℝ) < ([(1 : ℝ), 1]).sum ∧
    (convertingMagnitudeToDecibel [(0 : ℝ), 10] [(1 : ℝ), 1]).getD 0 0 = -120 := by
  have hw : (0 : ℝ) < ([(1 : ℝ), 1]).sum := by norm_num
  exact ⟨hw, (C6_decibel [0, 10] [1, 1] hw 0 (by norm_num)).2.1 rfl⟩

/-! ## Band analysis on zero and concentrated spectra (C9) -/

/-- C9 counterexample: spectrum `[0.3, 0, 0, 0]` has its entire energy inside
band `a = [0,2)`, yet band `a` does not report strictly greater energy than
band `b = [2,4)` — the `0.3` bin is below the `0.5` noise floor and is zeroed,
so both bands report `0`. -/
theorem C9_counterexample :
    frequency_bands [3/10, 0, 0, 0] [("a", 0, 2), ("b", 2, 4)] =
      [("a", 0), ("b", 0)] ∧
    ¬ (bandVal (frequency_bands [3/10, 0, 0, 0] [("a", 0, 2), ("b", 2, 4)]) "b" <
       bandVal (frequency_bands [3/10, 0, 0, 0] [("a", 0, 2), ("b", 2, 4)]) "a") := by
  have hr : frequency_bands [3/10, 0, 0, 0] [("a", 0, 2), ("b", 2, 4)] =
      [("a", 0), ("b", 0)] := by
    norm_num [frequency_bands, remove_noise, pySlice, pySliceStart, Int.toNat,
      List.take_succ_cons, List.take_zero, List.drop_succ_cons, List.drop_zero,
      List.sum_cons, List.sum_nil]
  refine ⟨hr, ?_⟩
  rw [hr]
  have ha : bandVal [("a", (0 : ℚ)), ("b", 0)] "a" = 0 := rfl
  have hb : bandVal [("a", (0 : ℚ)), ("b", 0)] "b" = 0 := rfl
  rw [ha, hb]
  norm_num

/-- C9 as amended: given an all-zero spectrum, every band reports zero
energy.  And, against a spectrum whose bins at or above the `0.5` noise floor
all lie within one band's index range (bands being index ranges, per the
amended C3) with at least one such bin, that band reports strictly greater
energy than every other band whose index range is disjoint from it. -/
theorem C9_amended (bands : List (String × ℤ × ℤ)) (n : ℕ) (s : List ℚ)
    (bname cname : String) (blo bhi clo chi : ℤ)
    (hb : (bname, blo, bhi) ∈ bands) (hc : (cname, clo, chi) ∈ bands)
    (hblo : 0 ≤ blo) (hbhi : 0 ≤ bhi) (hclo : 0 ≤ clo) (hchi : 0 ≤ chi)
    (hin : ∃ i : ℕ, i < s.length ∧ blo ≤ (i : ℤ) ∧ (i : ℤ) < bhi ∧
      1/2 ≤ s.getD i 0)
    (hout : ∀ j : ℕ, j < s.length → 1/2 ≤ s.getD j 0 →
      blo ≤ (j : ℤ) ∧ (j : ℤ) < bhi)
    (hdisj : ∀ j : ℤ, ¬(blo ≤ j ∧ j < bhi ∧ clo ≤ j ∧ j < chi)) :
    (∀ p ∈ frequency_bands (List.replicate n (0 : ℚ)) bands, p.2 = 0) ∧
    (bname, (pySlice (remove_noise s (1/2)) blo bhi).sum) ∈
      frequency_bands s bands ∧
    (cname, (pySlice (remove_noise s (1/2)) clo chi).sum) ∈
      frequency_bands s bands ∧
    (pySlice (remove_noise s (1/2)) clo chi).sum <
      (pySlice (remove_noise s (1/2)) blo bhi).sum := by
  have hFnonneg : ∀ j : ℕ, 0 ≤ (remove_noise s (1/2)).getD j 0 := by
    intro j
    by_cases hj : j < s.length
    · rw [remove_noise_getD s _ j hj]
      split_ifs with h
      · exact le_refl 0
      · linarith [not_lt.mp h]
    · rw [List.getD_eq_default _ _ (by rw [remove_noise_length]; omega)]
  have hFzero_outside : ∀ j : ℕ, j < s.length →
      ¬(blo ≤ (j : ℤ) ∧ (j : ℤ) < bhi) → (remove_noise s (1/2)).getD j 0 = 0 := by
    intro j hj hnb
    rw [remove_noise_getD s _ j hj]
    split_ifs with h
    · rfl
    · exact absurd (hout j hj (not_lt.mp h)) hnb
  have hcsum : (pySlice (remove_noise s (1/2)) clo chi).sum = 0 := by
    rw [sum_pySlice_nonneg_bounds _ _ _ hclo hchi]
    apply Finset.sum_eq_zero
    intro j hj
    rw [Finset.mem_range, remove_noise_length] at hj
    split_ifs with hcj
    · exact hFzero_outside j hj
        (fun hbj => hdisj j ⟨hbj.1, hbj.2, hcj.1, hcj.2⟩)
    · rfl
  obtain ⟨i, hiL, hib1, hib2, hival⟩ := hin
  have hbsum : 1/2 ≤ (pySlice (remove_noise s (1/2)) blo bhi).sum := by
    rw [sum_pySlice_nonneg_bounds _ _ _ hblo hbhi]
    have hterm : (1 : ℚ)/2 ≤
        (if blo ≤ (i : ℤ) ∧ (i : ℤ) < bhi
         then (remove_noise s (1/2)).getD i 0 else 0) := by
      rw [if_pos ⟨hib1, hib2⟩, remove_noise_getD s _ i hiL,
        if_neg (not_lt.mpr hival)]
      exact hival
    have hmem : i ∈ Finset.range (remove_noise s (1/2)).length := by
      rw [Finset.mem_range, remove_noise_length]
      exact hiL
    have hnn : ∀ j ∈ Finset.range (remove_noise s (1/2)).length,
        0 ≤ (if blo ≤ (j : ℤ) ∧ (j : ℤ) < bhi
             then (remove_noise s (1/2)).getD j 0 else 0) := by
      intro j _
      split_ifs with h
      · exact hFnonneg j
      · exact le_refl 0
    exact le_trans hterm (Finset.single_le_sum hnn hmem)
  refine ⟨?_, ?_, ?_, ?_⟩
  · intro p hp
    unfold frequency_bands at hp
    obtain ⟨b, _, rfl⟩ := List.mem_map.mp hp
    dsimp only
    have hfilter : remove_noise (List.replicate n (0 : ℚ)) (1/2) =
        List.replicate n 0 := by
      unfold remove_noise
      rw [List.map_replicate]
      norm_num
    rw [hfilter]
    unfold pySlice
    rw [List.take_replicate, List.drop_replicate, List.sum_replicate]
    simp
  · unfold frequency_bands
    exact List.mem_map.mpr ⟨(bname, blo, bhi), hb, rfl⟩
  · unfold frequency_bands
    exact List.mem_map.mpr ⟨(cname, clo, chi), hc, rfl⟩
  · rw [hcsum]
    linarith

theorem C9_amended_witness :
    ((("a", (0 : ℤ), (2 : ℤ)) ∈ [("a", (0 : ℤ), (2 : ℤ)), ("b", (2 : ℤ), (4 : ℤ))]) ∧
     (pySlice (remove_noise [1, 0, 0, 0] (1/2)) 2 4).sum <
       (pySlice (remove_noise [1, 0, 0, 0] (1/2)) 0 2).sum) := by
  have h := C9_amended [("a", 0, 2), ("b", 2, 4)] 4 [1, 0, 0, 0] "a" "b" 0 2 2 4
    (by simp) (by simp) (by norm_num) (by norm_num) (by norm_num) (by norm_num)
    ⟨0, by norm_num, by norm_num, by norm_num, by norm_num⟩
    (by intro j hj hval
        simp only [List.length_cons, List.length_nil] at hj
        interval_cases j <;> norm_num at hval ⊢)
    (by intro j; omega)
  exact ⟨by simp, h.2.2.2⟩

end Rtmaii
